import Mathlib

/-!
Verification of the point-cloud utility `data_loader.py` (class `PointCloudLoader`).

Shallow embedding: 3D points are triples of rationals (idealising IEEE-754
doubles with exact arithmetic), the loaded array `self.points` is an optional
list of points, and each method of the class becomes a Lean function.
`np.round` rounds half to even; `np.unique(rounded, axis=0, return_index=True)`
returns the distinct rows of `rounded` in ascending lexicographic order
together with, for each distinct row, the smallest index at which that row
occurs (numpy uses a stable sort when `return_index=True`, so the reported
index is the first occurrence), and `self.points[unique_indices]` then selects
those first-occurrence points, listed in sorted-row order.
-/

namespace RobotTopology

/-- A 3D point: the (x, y, z) coordinates of one row of the loaded array. -/
abbrev Point : Type := ℚ × ℚ × ℚ

/-- A voxel key: the componentwise rounded triple `np.round(p / voxel_size)`.
In the source the key stays a row of floats, but its components are
integer-valued; we represent them as integers. -/
abbrev VKey : Type := ℤ × ℤ × ℤ

/-- Rounding to the nearest integer with ties to even, the default rounding
rule of `np.round`. -/
def roundHalfEven (q : ℚ) : ℤ :=
  if q - ⌊q⌋ < 1/2 then ⌊q⌋
  else if 1/2 < q - ⌊q⌋ then ⌊q⌋ + 1
  else if ⌊q⌋ % 2 = 0 then ⌊q⌋ else ⌊q⌋ + 1

/-- The voxel key of a point: each coordinate divided by the voxel size and
rounded to the nearest integer (line `rounded = np.round(self.points / voxel_size)`). -/
def voxelKey (v : ℚ) (p : Point) : VKey :=
  (roundHalfEven (p.1 / v), roundHalfEven (p.2.1 / v), roundHalfEven (p.2.2 / v))

/-- Lexicographic order on voxel keys: the order in which `np.unique(..., axis=0)`
lists the distinct rows. -/
def keyLE (a b : VKey) : Prop :=
  a.1 < b.1 ∨ (a.1 = b.1 ∧ (a.2.1 < b.2.1 ∨ (a.2.1 = b.2.1 ∧ a.2.2 ≤ b.2.2)))

instance : DecidableRel keyLE := fun a b => by
  unfold keyLE; infer_instance

theorem keyLE_total : ∀ a b : VKey, keyLE a b ∨ keyLE b a := by
  intro a b; unfold keyLE; omega

theorem keyLE_trans : ∀ a b c : VKey, keyLE a b → keyLE b c → keyLE a c := by
  intro a b c; unfold keyLE; omega

theorem keyLE_antisymm : ∀ a b : VKey, keyLE a b → keyLE b a → a = b := by
  intro a b hab hba
  unfold keyLE at hab hba
  have h1 : a.1 = b.1 := by omega
  have h2 : a.2.1 = b.2.1 := by omega
  have h3 : a.2.2 = b.2.2 := by omega
  obtain ⟨a1, a2, a3⟩ := a
  obtain ⟨b1, b2, b3⟩ := b
  simp_all

instance : IsTotal VKey keyLE := ⟨keyLE_total⟩

instance : IsTrans VKey keyLE := ⟨keyLE_trans⟩

/-- Each row of the loaded array paired with its rounded row: the association
between a row of `rounded` and the row of `self.points` at the same index. -/
def taggedOf (S : List Point) (v : ℚ) : List (VKey × Point) :=
  S.map (fun p => (voxelKey v p, p))

/-- The representative of one voxel: the point at the smallest index of `S`
whose key is `k` (the row `self.points[i]` for the first-occurrence index `i`
reported by `np.unique(..., return_index=True)` for the distinct row `k`),
or `none` when no row has that key. -/
def repOf (S : List Point) (v : ℚ) (k : VKey) : Option Point :=
  ((taggedOf S v).find? (fun kp => decide (kp.1 = k))).map Prod.snd

/-- The body of `downsample` on a loaded array `S`:
`rounded = np.round(S / voxel_size)`;
`_, unique_indices = np.unique(rounded, axis=0, return_index=True)`;
`return S[unique_indices]`.
The distinct keys are listed in ascending lexicographic order and for each of
them the point at its smallest index in `S` is selected: this is exactly
`S[unique_indices]`. -/
def downsampleList (S : List Point) (v : ℚ) : List Point :=
  ((S.map (voxelKey v)).dedup.insertionSort keyLE).filterMap (repOf S v)

/-- The loader state: `self.points` is `None` or a loaded array of rows. -/
structure PointCloudLoader where
  points : Option (List Point)

/-- Summary dictionary returned by `get_summary`: row count and componentwise
mean, min and max. -/
structure Summary where
  num_points : ℕ
  mean : Point
  min : Point
  max : Point

/-- Componentwise sum of two points. -/
def vadd (a b : Point) : Point := (a.1 + b.1, a.2.1 + b.2.1, a.2.2 + b.2.2)

/-- Componentwise minimum of two points (`np.min(..., axis=0)` step). -/
def vmin (a b : Point) : Point := (min a.1 b.1, min a.2.1 b.2.1, min a.2.2 b.2.2)

/-- Componentwise maximum of two points (`np.max(..., axis=0)` step). -/
def vmax (a b : Point) : Point := (max a.1 b.1, max a.2.1 b.2.1, max a.2.2 b.2.2)

/-- Method `get_summary`: returns `None` when no points are loaded, otherwise
the summary dictionary.  (On a loaded empty array `np.min` has no value; that
case is unreachable through `load_points`, which requires a 3-column array.) -/
def get_summary (L : PointCloudLoader) : Option Summary :=
  match L.points with
  | none => none
  | some [] => none
  | some (p :: ps) =>
    let n : ℚ := (p :: ps).length
    let s := ps.foldl vadd p
    some { num_points := (p :: ps).length
           mean := (s.1 / n, s.2.1 / n, s.2.2 / n)
           min := ps.foldl vmin p
           max := ps.foldl vmax p }

/-- Method `downsample`: returns `None` when no points are loaded, otherwise
the downsampled array.  The first component is the loader state after the
call: the method never assigns to `self.points`, and every numpy operation in
its body (`/`, `np.round`, `np.unique`, fancy indexing) allocates a fresh
array, so the state is returned unchanged.  The method performs no check on
`voxel_size`. -/
def downsample (L : PointCloudLoader) (voxel_size : ℚ) :
    PointCloudLoader × Option (List Point) :=
  match L.points with
  | none => (L, none)
  | some S => (L, some (downsampleList S voxel_size))

/-- Method `filter_by_y_range`: returns `None` when no points are loaded,
otherwise the rows whose second column lies in `[y_min, y_max]` (boolean-mask
selection `(y >= y_min) & (y <= y_max)`, both bounds inclusive).  As for
`downsample`, the loader state is returned unchanged. -/
def filter_by_y_range (L : PointCloudLoader) (y_min y_max : ℚ) :
    PointCloudLoader × Option (List Point) :=
  match L.points with
  | none => (L, none)
  | some S => (L, some (S.filter (fun p => decide (y_min ≤ p.2.1 ∧ p.2.1 ≤ y_max))))

/-! ### Sanity checks on concrete inputs (the scenarios of the specification) -/

example : roundHalfEven (2/5 : ℚ) = 0 := by norm_num [roundHalfEven]
example : roundHalfEven (1/2 : ℚ) = 0 := by norm_num [roundHalfEven]
example : roundHalfEven (3/2 : ℚ) = 2 := by norm_num [roundHalfEven]
example : roundHalfEven (-1/2 : ℚ) = 0 := by norm_num [roundHalfEven]
example : roundHalfEven (-3/2 : ℚ) = -2 := by norm_num [roundHalfEven]

example : downsampleList [((0:ℚ), (0:ℚ), (0:ℚ)), (1/20, 0, 0), (1, 0, 0)] (1/2)
    = [(0, 0, 0), (1, 0, 0)] := by
  have h1 : voxelKey (1/2) ((0:ℚ), (0:ℚ), (0:ℚ)) = (0, 0, 0) := by
    norm_num [voxelKey, roundHalfEven]
  have h2 : voxelKey (1/2) ((1:ℚ)/20, (0:ℚ), (0:ℚ)) = (0, 0, 0) := by
    norm_num [voxelKey, roundHalfEven]
  have h3 : voxelKey (1/2) ((1:ℚ), (0:ℚ), (0:ℚ)) = (2, 0, 0) := by
    norm_num [voxelKey, roundHalfEven]
  simp +decide [downsampleList, repOf, taggedOf, h1, h2, h3, -Prod.mk_zero_zero, -Prod.mk_one_one, -one_div]

/-! ### Structural lemmas about the downsampling pipeline -/

/-- If a key occurs among the keys of `S`, the voxel has a representative,
it is a row of `S`, and its key is `k`. -/
lemma repOf_eq_some_of_mem_keys (S : List Point) (v : ℚ) (k : VKey)
    (hk : k ∈ S.map (voxelKey v)) :
    ∃ p, repOf S v k = some p := by
  rcases List.mem_map.1 hk with ⟨p, hp, hpk⟩
  have h : ((taggedOf S v).find? (fun kp => decide (kp.1 = k))).isSome := by
    rw [List.find?_isSome]
    refine ⟨(voxelKey v p, p), ?_, by simp [hpk]⟩
    rw [taggedOf]
    exact List.mem_map.2 ⟨p, hp, rfl⟩
  rcases Option.isSome_iff_exists.mp h with ⟨kp, hkp⟩
  refine ⟨kp.2, ?_⟩
  rw [repOf, hkp]
  rfl

/-- A representative returned for key `k` is a row of `S` whose key is `k`. -/
lemma repOf_spec (S : List Point) (v : ℚ) (k : VKey) (p : Point)
    (h : repOf S v k = some p) : p ∈ S ∧ voxelKey v p = k := by
  rw [repOf] at h
  rcases Option.map_eq_some'.1 h with ⟨kp, hfind, hsnd⟩
  have hk : kp.1 = k := by simpa using List.find?_some hfind
  have hm : kp ∈ taggedOf S v := List.mem_of_find?_eq_some hfind
  rw [taggedOf] at hm
  rcases List.mem_map.1 hm with ⟨q, hq, hqe⟩
  subst hsnd
  subst hqe
  exact ⟨hq, hk⟩

/-- Mapping the key function over the selected representatives gives back the
key list, provided every key in the list is occupied. -/
lemma filterMap_repOf_map_keys (S : List Point) (v : ℚ) :
    ∀ ks : List VKey, (∀ k ∈ ks, k ∈ S.map (voxelKey v)) →
      (ks.filterMap (repOf S v)).map (voxelKey v) = ks := by
  intro ks
  induction ks with
  | nil => simp
  | cons k ks ih =>
    intro h
    obtain ⟨p, hp⟩ := repOf_eq_some_of_mem_keys S v k (h k (List.mem_cons_self k ks))
    have hrec := ih (fun k hk => h k (List.mem_cons_of_mem _ hk))
    simp only [List.filterMap_cons, hp, List.map_cons, hrec, (repOf_spec S v k p hp).2]

/-- Every key in the sorted deduplicated key list is a key of some point. -/
lemma mem_keys_of_mem_sorted (S : List Point) (v : ℚ) (k : VKey)
    (hk : k ∈ (S.map (voxelKey v)).dedup.insertionSort keyLE) :
    k ∈ S.map (voxelKey v) :=
  (List.dedup_sublist _).subset ((List.perm_insertionSort keyLE _).mem_iff.mp hk)

/-- The keys of the downsampled output are exactly the distinct input keys in
ascending lexicographic order. -/
lemma downsampleList_map_keys (S : List Point) (v : ℚ) :
    (downsampleList S v).map (voxelKey v)
      = (S.map (voxelKey v)).dedup.insertionSort keyLE := by
  unfold downsampleList
  exact filterMap_repOf_map_keys S v _ (mem_keys_of_mem_sorted S v)

/-- Cardinality of a list's finset of elements is the length of its
deduplication. -/
lemma toFinset_card_eq_dedup_length {α : Type} [DecidableEq α] (l : List α) :
    l.toFinset.card = l.dedup.length := by
  rw [Finset.card, List.toFinset_val, Multiset.coe_card]

/-- Pointwise equal functions give equal `filterMap` results. -/
lemma filterMap_congr_mem {α β : Type} {l : List α} {f g : α → Option β}
    (h : ∀ a ∈ l, f a = g a) : l.filterMap f = l.filterMap g := by
  induction l with
  | nil => rfl
  | cons a l ih =>
    rw [List.filterMap_cons, List.filterMap_cons, h a (List.mem_cons_self a l),
      ih (fun b hb => h b (List.mem_cons_of_mem _ hb))]

/-- On a list whose keys are pairwise distinct, looking up each key in order
returns the list itself. -/
lemma filterMap_repOf_self (v : ℚ) :
    ∀ L : List Point, (L.map (voxelKey v)).Nodup →
      (L.map (voxelKey v)).filterMap (repOf L v) = L := by
  intro L
  induction L with
  | nil => simp
  | cons a T ih =>
    intro h
    rw [List.map_cons] at h ⊢
    have hhead : voxelKey v a ∉ T.map (voxelKey v) := (List.nodup_cons.1 h).1
    have htail : (T.map (voxelKey v)).Nodup := (List.nodup_cons.1 h).2
    have h1 : repOf (a :: T) v (voxelKey v a) = some a := by
      rw [repOf, taggedOf, List.map_cons, List.find?_cons_of_pos _ (by simp)]
      rfl
    have h2 : ∀ k ∈ T.map (voxelKey v), repOf (a :: T) v k = repOf T v k := by
      intro k hk
      have hne : voxelKey v a ≠ k := fun he => hhead (he ▸ hk)
      rw [repOf, repOf, taggedOf, List.map_cons,
        List.find?_cons_of_neg _ (by simpa using hne)]
      rfl
    rw [List.filterMap_cons, h1,
      filterMap_congr_mem h2, ih htail]

/-- A list whose key list is strictly ordered is a fixed point of
downsampling. -/
lemma downsampleList_eq_self (v : ℚ) (L : List Point)
    (hnd : (L.map (voxelKey v)).Nodup)
    (hs : List.Sorted keyLE (L.map (voxelKey v))) :
    downsampleList L v = L := by
  unfold downsampleList
  rw [List.dedup_eq_self.2 hnd, hs.insertionSort_eq]
  exact filterMap_repOf_self v L hnd

/-- The representative of a voxel sits at the smallest index of `S` carrying
its key: every earlier row has a different key. -/
lemma repOf_first_index (S : List Point) (v : ℚ) (k : VKey) :
    ∀ p : Point, repOf S v k = some p →
      ∃ i, ∃ hi : i < S.length, S.get ⟨i, hi⟩ = p ∧
        ∀ j (hj : j < S.length), j < i → voxelKey v (S.get ⟨j, hj⟩) ≠ k := by
  induction S with
  | nil =>
    intro p h
    rw [repOf, taggedOf] at h
    simp at h
  | cons a T ih =>
    intro p h
    by_cases ha : voxelKey v a = k
    · have he : repOf (a :: T) v k = some a := by
        rw [repOf, taggedOf, List.map_cons, List.find?_cons_of_pos _ (by simp [ha])]
        rfl
      rw [he] at h
      cases h
      exact ⟨0, by simp, rfl, fun j hj hj0 => absurd hj0 (Nat.not_lt_zero j)⟩
    · have hstep : repOf (a :: T) v k = repOf T v k := by
        rw [repOf, repOf, taggedOf, List.map_cons,
          List.find?_cons_of_neg _ (by simpa using ha)]
        rfl
      rw [hstep] at h
      rcases ih p h with ⟨i, hi, hget, hfirst⟩
      refine ⟨i + 1, Nat.succ_lt_succ hi, hget, ?_⟩
      intro j hj hji
      cases j with
      | zero => simpa using ha
      | succ j => exact hfirst j (Nat.lt_of_succ_lt_succ hj) (Nat.lt_of_succ_lt_succ hji)

/-- The representative of an occupied voxel appears in the downsampled output. -/
lemma repOf_mem_downsampleList (S : List Point) (v : ℚ) (k : VKey) (p : Point)
    (hk : k ∈ S.map (voxelKey v)) (h : repOf S v k = some p) :
    p ∈ downsampleList S v := by
  unfold downsampleList
  exact List.mem_filterMap.2
    ⟨k, (List.perm_insertionSort keyLE _).mem_iff.2 (List.mem_dedup.2 hk), h⟩

/-- Any output point carrying key `k` is the representative of `k`. -/
lemma downsample_key_unique (S : List Point) (v : ℚ) (k : VKey) (p q : Point)
    (h : repOf S v k = some p) (hq : q ∈ downsampleList S v)
    (hqk : voxelKey v q = k) : q = p := by
  unfold downsampleList at hq
  rcases List.mem_filterMap.1 hq with ⟨k2, hk2, hrep2⟩
  have hqk2 : voxelKey v q = k2 := (repOf_spec S v k2 q hrep2).2
  have hk2k : k2 = k := by rw [← hqk2, hqk]
  rw [hk2k, h] at hrep2
  exact (Option.some.inj hrep2).symm

/-! ### Claims -/

/-- Claim C1, counterexample: for S = [(1,1,1), (0,0,0)] and v = 1 the two
rows fall in distinct voxels, so under the claimed ascending-original-index
ordering the output would be S itself; the code instead returns the
representatives sorted by voxel key, i.e. [(0,0,0), (1,1,1)] ≠ S. -/
theorem downsample_output_not_in_input_order :
    downsampleList [((1:ℚ), (1:ℚ), (1:ℚ)), (0, 0, 0)] 1
        = [((0:ℚ), (0:ℚ), (0:ℚ)), (1, 1, 1)] ∧
    downsampleList [((1:ℚ), (1:ℚ), (1:ℚ)), (0, 0, 0)] 1
        ≠ [((1:ℚ), (1:ℚ), (1:ℚ)), (0, 0, 0)] ∧
    (([((1:ℚ), (1:ℚ), (1:ℚ)), (0, 0, 0)] : List Point).map (voxelKey 1)).Nodup := by
  have h1 : voxelKey 1 ((1:ℚ), (1:ℚ), (1:ℚ)) = (1, 1, 1) := by
    norm_num [voxelKey, roundHalfEven]
  have h2 : voxelKey 1 ((0:ℚ), (0:ℚ), (0:ℚ)) = (0, 0, 0) := by
    norm_num [voxelKey, roundHalfEven]
  have hval : downsampleList [((1:ℚ), (1:ℚ), (1:ℚ)), (0, 0, 0)] 1
      = [((0:ℚ), (0:ℚ), (0:ℚ)), (1, 1, 1)] := by
    simp +decide [downsampleList, repOf, taggedOf, h1, h2, -Prod.mk_zero_zero, -Prod.mk_one_one, -one_div]
  refine ⟨hval, ?_, ?_⟩
  · rw [hval]
    intro hcontra
    norm_num at hcontra
  · simp +decide [h1, h2, -Prod.mk_zero_zero, -Prod.mk_one_one]

/-- Claim C1, amended: the points in the output of `downsample` appear in
ascending lexicographic order of their voxel keys (the sorted order produced
by `np.unique(..., axis=0)`), with pairwise distinct keys — not in ascending
order of their original index. -/
theorem downsample_output_sorted_by_voxelKey (S : List Point) (v : ℚ) :
    List.Sorted keyLE ((downsampleList S v).map (voxelKey v)) ∧
    ((downsampleList S v).map (voxelKey v)).Nodup := by
  rw [downsampleList_map_keys]
  exact ⟨List.sorted_insertionSort keyLE _,
    (List.perm_insertionSort keyLE _).nodup_iff.mpr (List.nodup_dedup _)⟩

/-- Claim C2, counterexample: `downsample` called with voxel_size = -1 on a
loaded point set returns a downsampled array; it does not fail (the source
has no validation of voxel_size and no error path at all). -/
theorem downsample_negative_voxel_returns_result :
    (downsample ⟨some [((1:ℚ), (2:ℚ), (3:ℚ))]⟩ (-1)).2
        = some [((1:ℚ), (2:ℚ), (3:ℚ))] ∧
    (downsample ⟨some [((1:ℚ), (2:ℚ), (3:ℚ))]⟩ (-1)).2 ≠ none := by
  have h1 : voxelKey (-1) ((1:ℚ), (2:ℚ), (3:ℚ)) = (-1, -2, -3) := by
    norm_num [voxelKey, roundHalfEven]
  have hval : (downsample ⟨some [((1:ℚ), (2:ℚ), (3:ℚ))]⟩ (-1)).2
      = some [((1:ℚ), (2:ℚ), (3:ℚ))] := by
    simp +decide [downsample, downsampleList, repOf, taggedOf, h1, -one_div]
  exact ⟨hval, by rw [hval]; simp⟩

/-- Claim C2, amended: `downsample` performs no validation of `voxel_size`:
for every loaded point set and every voxel_size ≤ 0 it still returns a
result (never an `InvalidArgument` failure). -/
theorem downsample_no_voxel_size_validation (L : PointCloudLoader)
    (S : List Point) (v : ℚ) (h : L.points = some S) (hv : v ≤ 0) :
    ((downsample L v).2).isSome = true := by
  obtain ⟨points⟩ := L
  cases h
  rfl

/-- Witness for the amended claim C2 at S = [(1,2,3)], v = -1. -/
theorem downsample_no_voxel_size_validation_witness :
    (PointCloudLoader.mk (some [((1:ℚ), (2:ℚ), (3:ℚ))])).points
        = some [((1:ℚ), (2:ℚ), (3:ℚ))] ∧
    ((-1 : ℚ) ≤ 0) ∧
    ((downsample ⟨some [((1:ℚ), (2:ℚ), (3:ℚ))]⟩ (-1)).2).isSome = true :=
  ⟨rfl, by norm_num,
    downsample_no_voxel_size_validation _ [((1:ℚ), (2:ℚ), (3:ℚ))] (-1) rfl (by norm_num)⟩

/-- Claim C3: for every occupied voxel key, the unique representative kept by
`downsample` is the row at the smallest original index mapping to that key:
it is in the output, carries the key, every earlier row has a different key,
and any output point with that key is it. -/
theorem downsample_representative_smallest_index (S : List Point) (v : ℚ)
    (k : VKey) (hocc : ∃ p ∈ S, voxelKey v p = k) :
    ∃ i, ∃ hi : i < S.length,
      S.get ⟨i, hi⟩ ∈ downsampleList S v ∧
      voxelKey v (S.get ⟨i, hi⟩) = k ∧
      (∀ j (hj : j < S.length), j < i → voxelKey v (S.get ⟨j, hj⟩) ≠ k) ∧
      (∀ q ∈ downsampleList S v, voxelKey v q = k → q = S.get ⟨i, hi⟩) := by
  rcases hocc with ⟨p, hpS, hpk⟩
  have hk : k ∈ S.map (voxelKey v) := List.mem_map.2 ⟨p, hpS, hpk⟩
  obtain ⟨r, hr⟩ := repOf_eq_some_of_mem_keys S v k hk
  obtain ⟨i, hi, hget, hfirst⟩ := repOf_first_index S v k r hr
  subst hget
  exact ⟨i, hi, repOf_mem_downsampleList S v k _ hk hr, (repOf_spec S v k _ hr).2,
    hfirst, fun q hq hqk => downsample_key_unique S v k _ q hr hq hqk⟩

/-- Witness for claim C3: the tie-break scenario S = [(0.4,0,0), (0.1,0,0)],
v = 1; both rows round to key (0,0,0) and the output is exactly [(0.4,0,0)]. -/
theorem downsample_representative_smallest_index_witness :
    (∃ p ∈ ([((2:ℚ)/5, (0:ℚ), (0:ℚ)), (1/10, 0, 0)] : List Point),
      voxelKey 1 p = (0, 0, 0)) ∧
    downsampleList [((2:ℚ)/5, (0:ℚ), (0:ℚ)), (1/10, 0, 0)] 1 = [(2/5, 0, 0)] ∧
    (∃ i, ∃ hi : i < ([((2:ℚ)/5, (0:ℚ), (0:ℚ)), (1/10, 0, 0)] : List Point).length,
      ([((2:ℚ)/5, (0:ℚ), (0:ℚ)), (1/10, 0, 0)] : List Point).get ⟨i, hi⟩
          ∈ downsampleList [((2:ℚ)/5, (0:ℚ), (0:ℚ)), (1/10, 0, 0)] 1 ∧
      voxelKey 1 (([((2:ℚ)/5, (0:ℚ), (0:ℚ)), (1/10, 0, 0)] : List Point).get ⟨i, hi⟩)
          = (0, 0, 0) ∧
      (∀ j (hj : j < ([((2:ℚ)/5, (0:ℚ), (0:ℚ)), (1/10, 0, 0)] : List Point).length),
        j < i → voxelKey 1 (([((2:ℚ)/5, (0:ℚ), (0:ℚ)), (1/10, 0, 0)] : List Point).get
          ⟨j, hj⟩) ≠ (0, 0, 0)) ∧
      (∀ q ∈ downsampleList [((2:ℚ)/5, (0:ℚ), (0:ℚ)), (1/10, 0, 0)] 1,
        voxelKey 1 q = (0, 0, 0) →
          q = ([((2:ℚ)/5, (0:ℚ), (0:ℚ)), (1/10, 0, 0)] : List Point).get ⟨i, hi⟩)) := by
  have h1 : voxelKey 1 ((2:ℚ)/5, (0:ℚ), (0:ℚ)) = (0, 0, 0) := by
    norm_num [voxelKey, roundHalfEven]
  have h2 : voxelKey 1 ((1:ℚ)/10, (0:ℚ), (0:ℚ)) = (0, 0, 0) := by
    norm_num [voxelKey, roundHalfEven]
  have hocc : ∃ p ∈ ([((2:ℚ)/5, (0:ℚ), (0:ℚ)), (1/10, 0, 0)] : List Point),
      voxelKey 1 p = (0, 0, 0) :=
    ⟨((2:ℚ)/5, (0:ℚ), (0:ℚ)), by simp, h1⟩
  refine ⟨hocc, ?_, downsample_representative_smallest_index _ 1 (0, 0, 0) hocc⟩
  simp +decide [downsampleList, repOf, taggedOf, h1, h2, -Prod.mk_zero_zero, -Prod.mk_one_one, -one_div]

/-- Claim C4: the output length equals the number of distinct voxel keys of
the input, hence never exceeds the input length; downsampling an empty point
set yields an empty result. -/
theorem downsample_length_eq_distinct_keys (S : List Point) (v : ℚ) :
    (downsampleList S v).length = ((S.map (voxelKey v)).toFinset).card ∧
    (downsampleList S v).length ≤ S.length ∧
    downsampleList ([] : List Point) v = [] := by
  have hlen : (downsampleList S v).length
      = ((S.map (voxelKey v)).dedup.insertionSort keyLE).length := by
    have h := congrArg List.length (downsampleList_map_keys S v)
    simpa using h
  refine ⟨?_, ?_, by simp [downsampleList, repOf, taggedOf]⟩
  · rw [hlen, List.length_insertionSort, toFinset_card_eq_dedup_length]
  · rw [hlen, List.length_insertionSort]
    calc (S.map (voxelKey v)).dedup.length
        ≤ (S.map (voxelKey v)).length := (List.dedup_sublist _).length_le
      _ = S.length := by simp

/-- Claim C5: every point of the downsampled output is a verbatim copy of
some input point. -/
theorem downsample_subset_input (S : List Point) (v : ℚ) (p : Point)
    (hp : p ∈ downsampleList S v) : p ∈ S := by
  unfold downsampleList at hp
  rcases List.mem_filterMap.1 hp with ⟨k, hk, hrep⟩
  exact (repOf_spec S v k p hrep).1

/-- Witness for claim C5 at S = [(1,2,3)], v = 1. -/
theorem downsample_subset_input_witness :
    ((1:ℚ), (2:ℚ), (3:ℚ)) ∈ downsampleList [((1:ℚ), (2:ℚ), (3:ℚ))] 1 ∧
    ((1:ℚ), (2:ℚ), (3:ℚ)) ∈ ([((1:ℚ), (2:ℚ), (3:ℚ))] : List Point) := by
  have h1 : voxelKey 1 ((1:ℚ), (2:ℚ), (3:ℚ)) = (1, 2, 3) := by
    norm_num [voxelKey, roundHalfEven]
  have hmem : ((1:ℚ), (2:ℚ), (3:ℚ)) ∈ downsampleList [((1:ℚ), (2:ℚ), (3:ℚ))] 1 := by
    simp +decide [downsampleList, repOf, taggedOf, h1, -one_div]
  exact ⟨hmem, downsample_subset_input _ 1 _ hmem⟩

/-- Claim C6: `downsample` never mutates the loader: the state after the call
equals the state before, for every voxel size (valid or not) and whether or
not a result is produced. -/
theorem downsample_preserves_loader_state (L : PointCloudLoader) (v : ℚ) :
    (downsample L v).1 = L := by
  obtain ⟨points⟩ := L
  cases points <;> rfl

/-- Claim C7: on a point set whose rows occupy pairwise distinct voxels,
downsampling twice equals downsampling once, including element order. -/
theorem downsample_idempotent_on_distinct_keys (S : List Point) (v : ℚ)
    (hv : 0 < v) (h : (S.map (voxelKey v)).Nodup) :
    downsampleList (downsampleList S v) v = downsampleList S v := by
  have hkeys : (downsampleList S v).map (voxelKey v)
      = (S.map (voxelKey v)).insertionSort keyLE := by
    rw [downsampleList_map_keys, List.dedup_eq_self.2 h]
  apply downsampleList_eq_self
  · rw [hkeys]
    exact (List.perm_insertionSort keyLE _).nodup_iff.mpr h
  · rw [hkeys]
    exact List.sorted_insertionSort keyLE _

/-- Witness for claim C7 at S = [(0,0,0), (1,1,1)], v = 1. -/
theorem downsample_idempotent_on_distinct_keys_witness :
    ((0:ℚ) < 1) ∧
    (([((0:ℚ), (0:ℚ), (0:ℚ)), (1, 1, 1)] : List Point).map (voxelKey 1)).Nodup ∧
    downsampleList (downsampleList [((0:ℚ), (0:ℚ), (0:ℚ)), (1, 1, 1)] 1) 1
        = downsampleList [((0:ℚ), (0:ℚ), (0:ℚ)), (1, 1, 1)] 1 := by
  have h1 : voxelKey 1 ((0:ℚ), (0:ℚ), (0:ℚ)) = (0, 0, 0) := by
    norm_num [voxelKey, roundHalfEven]
  have h2 : voxelKey 1 ((1:ℚ), (1:ℚ), (1:ℚ)) = (1, 1, 1) := by
    norm_num [voxelKey, roundHalfEven]
  have hnd : (([((0:ℚ), (0:ℚ), (0:ℚ)), (1, 1, 1)] : List Point).map (voxelKey 1)).Nodup := by
    simp +decide [h1, h2, -Prod.mk_zero_zero, -Prod.mk_one_one]
  exact ⟨by norm_num, hnd,
    downsample_idempotent_on_distinct_keys _ 1 (by norm_num) hnd⟩

/-- Claim C9: when no point set is loaded (`self.points is None`), each of
`get_summary`, `downsample` and `filter_by_y_range` returns `None` (and, the
embedding being total, no exception is raised). -/
theorem methods_return_none_when_unloaded (L : PointCloudLoader) (v a b : ℚ)
    (h : L.points = none) :
    get_summary L = none ∧ (downsample L v).2 = none ∧
    (filter_by_y_range L a b).2 = none := by
  obtain ⟨points⟩ := L
  cases h
  exact ⟨rfl, rfl, rfl⟩

/-- Witness for claim C9 at the unloaded state. -/
theorem methods_return_none_when_unloaded_witness :
    (PointCloudLoader.mk none).points = none ∧
    (get_summary ⟨none⟩ = none ∧ (downsample ⟨none⟩ 1).2 = none ∧
      (filter_by_y_range ⟨none⟩ 0 1).2 = none) :=
  ⟨rfl, methods_return_none_when_unloaded ⟨none⟩ 1 0 1 rfl⟩

/-- Claim C10: on a loaded point set, `filter_by_y_range` returns exactly the
rows whose y coordinate lies in the inclusive range [y_min, y_max], verbatim
and as a subsequence of the input (original relative order preserved). -/
theorem filter_by_y_range_spec (L : PointCloudLoader) (S : List Point)
    (a b : ℚ) (h : L.points = some S) :
    ∃ R, (filter_by_y_range L a b).2 = some R ∧ R.Sublist S ∧
      ∀ p, p ∈ R ↔ p ∈ S ∧ a ≤ p.2.1 ∧ p.2.1 ≤ b := by
  obtain ⟨points⟩ := L
  cases h
  refine ⟨_, rfl, List.filter_sublist _, ?_⟩
  intro p
  simp [List.mem_filter, decide_eq_true_eq]

/-- Witness for claim C10 at S = [(5,1,7), (5,3,7)], range [0,2]. -/
theorem filter_by_y_range_spec_witness :
    (PointCloudLoader.mk (some [((5:ℚ), (1:ℚ), (7:ℚ)), (5, 3, 7)])).points
        = some [((5:ℚ), (1:ℚ), (7:ℚ)), (5, 3, 7)] ∧
    (∃ R, (filter_by_y_range ⟨some [((5:ℚ), (1:ℚ), (7:ℚ)), (5, 3, 7)]⟩ 0 2).2
        = some R ∧ R.Sublist [((5:ℚ), (1:ℚ), (7:ℚ)), (5, 3, 7)] ∧
      ∀ p, p ∈ R ↔ p ∈ ([((5:ℚ), (1:ℚ), (7:ℚ)), (5, 3, 7)] : List Point) ∧
        0 ≤ p.2.1 ∧ p.2.1 ≤ 2) :=
  ⟨rfl, filter_by_y_range_spec _ [((5:ℚ), (1:ℚ), (7:ℚ)), (5, 3, 7)] 0 2 rfl⟩

end RobotTopology
